import Mathlib

set_option maxHeartbeats 1000000
set_option linter.unusedSectionVars false

/-!
Shallow embedding of `src/earley.py`: an Earley chart builder and recognizer.

Python items are 4-tuples `(key, rule, dot, index)`; we model them as a
structure.  The Python code can raise `KeyError` (unknown grammar key) and
`IndexError` (out-of-range sequence index); we model exceptional control flow
with `Except PyErr`.  The `while activeQ:` drain loop is modelled with explicit
fuel; `PyErr.outOfFuel` is the modelling artifact for non-termination and never
corresponds to a Python exception.
-/

namespace Earley

/-- Exceptional outcomes of the Python code (`KeyError` from a failed mapping
lookup, `IndexError` from a failed sequence index), plus the fuel artifact. -/
inductive PyErr : Type where
  | keyError : PyErr
  | indexError : PyErr
  | outOfFuel : PyErr
deriving DecidableEq, Repr

/-- An Earley item, the Python tuple `(key, rule, dot, index)`:
`key` the nonterminal, `rule` the production being matched, `dot` how many
symbols of `rule` have been matched, `index` the origin position. -/
structure Item (α : Type) : Type where
  key : α
  rule : List α
  dot : Nat
  index : Nat
deriving DecidableEq, Repr

/-- The advanced copy of an item: dot moved one to the right, everything else
unchanged (the tuple `(key, rule, dot+1, index)` built by scanner/completer). -/
def Item.advance {α : Type} (it : Item α) : Item α :=
  { key := it.key, rule := it.rule, dot := it.dot + 1, index := it.index }

/-- A grammar: a finite mapping from nonterminal to list of productions,
modelled as an association list (Python `dict` preserving insertion order). -/
abbrev Grammar (α : Type) : Type := List (α × List (List α))

/-- `gfind g k` models the Python pair `k in g` / `g[k]`:
`some ps` when key `k` is present with productions `ps`, `none` otherwise. -/
def gfind {α : Type} [DecidableEq α] : Grammar α → α → Option (List (List α))
  | [], _ => none
  | (k, ps) :: rest, key => if key = k then some ps else gfind rest key

variable {α : Type} [DecidableEq α]

/-- `OrderedSet.add`: insert at the back if not already present. -/
def osAdd (s : List (Item α)) (x : Item α) : List (Item α) :=
  if x ∈ s then s else s ++ [x]

/-- Python `predictor(key, grammar, seen, i)`: one item `(key, production, 0, i)`
for every production of `key` not already in `seen`.  `grammar[key]` raises
`KeyError` when `key` is absent (never reached from `chart`, which guards with
`rule[dot] in grammar`). -/
def predictor (key : α) (grammar : Grammar α) (seen : List (Item α)) (i : Nat) :
    Except PyErr (List (Item α)) :=
  match gfind grammar key with
  | none => .error .keyError
  | some prods =>
    .ok (prods.filterMap (fun production =>
      if (⟨key, production, 0, i⟩ : Item α) ∈ seen then none
      else some ⟨key, production, 0, i⟩))

/-- One element of the Python `completer` comprehension: the condition
`pd <= len(pr) and key == pr[pd] and (pk, pr, pd+1, pi) not in seen`.
When `pd <= len(pr)` holds but `pd` is not a valid index (i.e. `pd == len(pr)`),
evaluating `pr[pd]` raises `IndexError` — the guard uses `<=`, not `<`. -/
def completerStep (key : α) (seen : List (Item α)) (p : Item α) :
    Except PyErr (Option (Item α)) :=
  if p.dot ≤ p.rule.length then
    match p.rule.get? p.dot with
    | none => .error .indexError
    | some s =>
      if s = key ∧ Item.advance p ∉ seen then .ok (some (Item.advance p))
      else .ok none
  else .ok none

/-- Python `completer(key, search_set, seen)`: advance every item of
`search_set` whose symbol at the dot equals `key`, skipping advanced copies
already in `seen`; left-to-right, first exception wins. -/
def completer (key : α) (search : List (Item α)) (seen : List (Item α)) :
    Except PyErr (List (Item α)) :=
  match search with
  | [] => .ok []
  | p :: rest =>
    match completerStep key seen p with
    | .error e => .error e
    | .ok o =>
      match completer key rest seen with
      | .error e => .error e
      | .ok others =>
        match o with
        | some it => .ok (it :: others)
        | none => .ok others

/-- Python `scanner(item, token, Q)`: if the symbol at the dot equals the
current token, append the advanced copy to `Q` unless already present.  The
token at the end-of-input sentinel position is `none` and never matches. -/
def scanner (item : Item α) (token : Option α) (Q : List (Item α)) :
    Except PyErr (List (Item α)) :=
  match item.rule.get? item.dot with
  | none => .error .indexError
  | some s =>
    if some s = token ∧ Item.advance item ∉ Q then .ok (Q ++ [Item.advance item])
    else .ok Q

/-- Python `history[index]` during position `i = past.length`: the state sets
`past` of earlier positions plus the current, still-growing set `curr`;
any larger index raises `IndexError`. -/
def getHist (past : List (List (Item α))) (curr : List (Item α)) (index : Nat) :
    Except PyErr (List (Item α)) :=
  match past.get? index with
  | some s => .ok s
  | none => if index = past.length then .ok curr else .error .indexError

/-- The body of the Python drain loop after `history[-1].add(item)`: dispatch on
the popped item.  Returns the items appended to `activeQ` and the new `nextQ`.
`if dot < len(rule)` is the `rule.get? dot = some _` branch; within it,
`rule[dot] in grammar` selects predict over scan; otherwise complete. -/
def stepItem (grammar : Grammar α) (past : List (List (Item α))) (ch : Option α)
    (item : Item α) (curr : List (Item α)) (nextQ : List (Item α)) :
    Except PyErr (List (Item α) × List (Item α)) :=
  match item.rule.get? item.dot with
  | some sym =>
    if (gfind grammar sym).isSome then
      match predictor sym grammar curr past.length with
      | .error e => .error e
      | .ok ps => .ok (ps, nextQ)
    else
      match scanner item ch nextQ with
      | .error e => .error e
      | .ok nq => .ok ([], nq)
  | none =>
    match getHist past curr item.index with
    | .error e => .error e
    | .ok search =>
      match completer item.key search curr with
      | .error e => .error e
      | .ok cs => .ok (cs, nextQ)

/-- The Python `while activeQ:` loop at one input position, with fuel: pop the
front item, add it to the current state set, run `stepItem`, and loop with the
newly produced items appended to the queue. -/
def drain (grammar : Grammar α) (past : List (List (Item α))) (ch : Option α) :
    Nat → List (Item α) → List (Item α) → List (Item α) →
    Except PyErr (List (Item α) × List (Item α))
  | _, [], curr, nextQ => .ok (curr, nextQ)
  | 0, _ :: _, _, _ => .error .outOfFuel
  | fuel + 1, item :: q, curr, nextQ =>
    match stepItem grammar past ch item (osAdd curr item) nextQ with
    | .error e => .error e
    | .ok (ps, nq) => drain grammar past ch fuel (q ++ ps) (osAdd curr item) nq

/-- The Python `for i, ch in enumerate(inp + [None])` loop: at each position,
swap in the pending queue, start a fresh state set and a fresh next queue,
drain, and append the closed state set to the history. -/
def chartLoop (grammar : Grammar α) (fuel : Nat) :
    List (Option α) → List (List (Item α)) → List (Item α) →
    Except PyErr (List (List (Item α)))
  | [], history, _ => .ok history
  | ch :: rest, history, nextQ =>
    match drain grammar history ch fuel nextQ [] [] with
    | .error e => .error e
    | .ok (curr, nq) => chartLoop grammar fuel rest (history ++ [curr]) nq

/-- Python `chart(grammar, start, inp)`: seed `(start, rule, 0, 0)` for every
production of `start` (raising `KeyError` when `start` is not a grammar key,
before any state set exists or the input is touched), then run the per-position
loop over the input extended with the `None` sentinel. -/
def chart (fuel : Nat) (grammar : Grammar α) (start : α) (inp : List α) :
    Except PyErr (List (List (Item α))) :=
  match gfind grammar start with
  | none => .error .keyError
  | some prods =>
    chartLoop grammar fuel (inp.map some ++ [none])
      [] (prods.map (fun rule => ⟨start, rule, 0, 0⟩))

/-- Python `recognizer(start, last_page)`.  Despite the parameter name, the
argument it is called with (`small_test`, `larger_test`) is the whole chart:
`for item in last_page` ranges over state sets and the inner
`for key, rule, dot, index in item` over the items of each set.  So it scans
every state set of the chart for an item with `index == 0`, `key == start`
and `dot >= len(rule)`. -/
def recognizer (start : α) (last_page : List (List (Item α))) : Bool :=
  last_page.any (fun page => page.any (fun it =>
    decide (it.index = 0 ∧ it.key = start ∧ it.rule.length ≤ it.dot)))

/-- Modelled from the spec (section 4.2), for comparison with `recognizer`:
true iff the given final state set contains an item with `origin == 0`,
`nonterminal == start` and `dot == len(production)`. -/
def recognizeSpec (start : α) (final_state_set : List (Item α)) : Bool :=
  final_state_set.any (fun it =>
    decide (it.index = 0 ∧ it.key = start ∧ it.dot = it.rule.length))

/-- The grammar of `small_test`:
`P -> S; S -> S + M | M; M -> M * T | T; T -> 1|2|3|4`. -/
def small_grammar : Grammar Char :=
  [('P', [['S']]),
   ('S', [['S', '+', 'M'], ['M']]),
   ('M', [['M', '*', 'T'], ['T']]),
   ('T', [['1'], ['2'], ['3'], ['4']])]

/-- The grammar `{'S': [()]}`: a single empty (length-0) production. -/
def eps_grammar : Grammar Char := [('S', [[]])]

/-- The grammar `S -> A B; A -> a; B -> b` (no empty production). -/
def ab_grammar : Grammar Char :=
  [('S', [['A', 'B']]), ('A', [['a']]), ('B', [['b']])]

/-- A grammar in which the nonterminal `A` is present with an empty list of
productions. -/
def empty_prods_grammar : Grammar Char := [('S', [['A']]), ('A', [])]

/-- The chart the code builds for `small_grammar` on input `"2+"`. -/
def two_plus_chart : List (List (Item Char)) :=
  ((chart 1000 small_grammar 'P' ['2', '+']).toOption).getD []

/-- Per-item proof obligation maintained while draining one position
`i = past.length` (the fixed-point invariant of the worklist loop): every item
the three rules can derive from a member of the current state set is either
already in the current set, pending in the active queue, or (for Scan) in the
next-position queue. -/
def Oblig (g : Grammar α) (past : List (List (Item α))) (ch : Option α)
    (curr q next : List (Item α)) (it : Item α) : Prop :=
  (∀ sym, it.rule.get? it.dot = some sym →
    (∀ prods, gfind g sym = some prods → ∀ p ∈ prods,
      (⟨sym, p, 0, past.length⟩ : Item α) ∈ curr ∨
        (⟨sym, p, 0, past.length⟩ : Item α) ∈ q) ∧
    (gfind g sym = none → ch = some sym → Item.advance it ∈ next)) ∧
  (it.rule.get? it.dot = none → ∃ Sj, past.get? it.index = some Sj ∧
    ∀ p ∈ Sj, p.rule.get? p.dot = some it.key →
      Item.advance p ∈ curr ∨ Item.advance p ∈ q)

/-- The fixed-point property of a finished chart (claim C4): for every position
`i` and every item in the final state set at `i`, everything Predict would add
is in that set, everything Complete would add (advancing the waiting items of
the final state set at the item's origin) is in that set, and everything Scan
would add (when the symbol at the dot is a terminal equal to token `i`) is in
the state set at `i + 1`. -/
def ChartClosed (g : Grammar α) (inp : List α) (H : List (List (Item α))) : Prop :=
  ∀ i S, H.get? i = some S → ∀ it ∈ S,
    (∀ sym, it.rule.get? it.dot = some sym → ∀ prods, gfind g sym = some prods →
      ∀ p ∈ prods, (⟨sym, p, 0, i⟩ : Item α) ∈ S) ∧
    (it.rule.get? it.dot = none → ∀ Sj, H.get? it.index = some Sj →
      ∀ p ∈ Sj, p.rule.get? p.dot = some it.key → Item.advance p ∈ S) ∧
    (∀ sym, it.rule.get? it.dot = some sym → gfind g sym = none →
      inp.get? i = some sym → ∀ S', H.get? (i + 1) = some S' →
        Item.advance it ∈ S')

/-- C1.  The claim says `recognize(start, final_state_set)` is true iff the
final state set holds a complete start item with origin 0.  The code's
`recognizer` actually scans every state set of the chart it is handed (its
`last_page` argument is the whole chart at both call sites): on the chart for
input `"2+"` it returns true although the final state set contains no item with
`origin = 0`, `key = 'P'` and `dot = len(rule)`. -/
theorem recognizer_ignores_final_state_set :
    chart 1000 small_grammar 'P' ['2', '+'] = Except.ok two_plus_chart ∧
    recognizer 'P' two_plus_chart = true ∧
    two_plus_chart.getLast?.map (recognizeSpec 'P') = some false :=
  ⟨rfl, rfl, rfl⟩

/-- C2.  On the grammar `P -> S; S -> S + M | M; M -> M * T | T; T -> 1|2|3|4`
and the incomplete input `"2+"`, the claim says the recognizer returns false;
the code returns true (state set 1 holds the complete item `(P, (S), 1, 0)` for
the prefix `"2"`, and `recognizer` scans every state set). -/
theorem small_test_on_two_plus_returns_true :
    (chart 1000 small_grammar 'P' ['2', '+']).map (recognizer 'P') =
      Except.ok true :=
  rfl

/-- C3.  The claim says `build` either returns a chart or fails with one of the
specified errors, and that the Complete step never indexes past the end of a
production.  In fact the completer guard `pd <= len(pr)` admits `pd = len(pr)`,
and `pr[pd]` then raises `IndexError`: with the empty production `S -> ()` on
empty input, and even with the ε-free grammar `S -> A B; A -> a; B -> b` on
input `"ab"` (the search set at origin 1 contains the complete item
`(A, (a), 1, 0)`). -/
theorem completer_indexes_past_production_end :
    chart 1000 eps_grammar 'S' [] = Except.error PyErr.indexError ∧
    chart 1000 ab_grammar 'S' ['a', 'b'] = Except.error PyErr.indexError :=
  ⟨rfl, rfl⟩

/-- C5.  Calling `chart` with a start symbol that is not a key of the grammar
fails with the key-lookup error (`KeyError`, the code's realization of
`UnknownStartSymbolError`), and the result does not depend on the input at all
(the failure happens before the input is examined and before any state set is
constructed). -/
theorem unknown_start_symbol_fails_first (fuel : Nat) (g : Grammar α) (start : α)
    (inp : List α) (h : gfind g start = none) :
    chart fuel g start inp = Except.error PyErr.keyError ∧
    ∀ inp' : List α, chart fuel g start inp = chart fuel g start inp' := by
  constructor
  · simp [chart, h]
  · intro inp'
    simp [chart, h]

/-- C5 witness: `'Z'` is not a key of the small grammar, and the build fails
with the key error. -/
theorem unknown_start_symbol_fails_first_witness :
    gfind small_grammar 'Z' = none ∧
    (chart 7 small_grammar 'Z' ['2'] = Except.error PyErr.keyError ∧
      ∀ inp' : List Char, chart 7 small_grammar 'Z' ['2'] = chart 7 small_grammar 'Z' inp') :=
  ⟨rfl, unknown_start_symbol_fails_first 7 small_grammar 'Z' ['2'] rfl⟩

/-- C6 counterexample.  The claim says a production lookup yielding no
productions surfaces `MalformedGrammarError`.  Here the predicted nonterminal
`'A'` has an empty production list, yet the build completes normally and
returns a chart: no error of any kind is surfaced. -/
theorem empty_production_list_is_silent :
    gfind empty_prods_grammar 'A' = some [] ∧
    chart 1000 empty_prods_grammar 'S' [] =
      Except.ok [[⟨'S', ['A'], 0, 0⟩]] :=
  ⟨rfl, rfl⟩

/-- C6 amended: a production lookup for a nonterminal with an empty production
list is silently treated as producing no predictions (the code defines no
`MalformedGrammarError`; an absent-key lookup cannot occur during prediction
because `chart` checks membership before predicting). -/
theorem predictor_on_empty_productions_is_silent (key : α) (g : Grammar α)
    (seen : List (Item α)) (i : Nat) (h : gfind g key = some []) :
    predictor key g seen i = Except.ok [] := by
  simp [predictor, h]

/-- C6 witness: the amended claim at the concrete grammar with `A ↦ []`. -/
theorem predictor_on_empty_productions_is_silent_witness :
    predictor 'A' empty_prods_grammar ([] : List (Item Char)) 0 = Except.ok [] :=
  predictor_on_empty_productions_is_silent 'A' empty_prods_grammar [] 0 rfl

/-- C8.  Any item in the next-position queue produced by processing one item is
either already in that queue or the scanned copy of the processed item, with
`dot` increased by exactly 1 and `key`, `rule`, `origin` unchanged: Predict and
Complete leave the next-position queue untouched, so Scan is the only rule that
places an item at a different position than the item it was derived from. -/
theorem scan_only_rule_crossing_positions (g : Grammar α)
    (past : List (List (Item α))) (ch : Option α) (item : Item α)
    (curr nextQ : List (Item α)) (out : List (Item α) × List (Item α))
    (h : stepItem g past ch item curr nextQ = Except.ok out) :
    ∀ x ∈ out.2, x ∈ nextQ ∨
      (x.key = item.key ∧ x.rule = item.rule ∧
        x.dot = item.dot + 1 ∧ x.index = item.index) := by
  intro x hx
  unfold stepItem at h
  revert h
  match hget : item.rule.get? item.dot with
  | some sym =>
    simp only
    by_cases hg : (gfind g sym).isSome
    · simp only [hg, if_true]
      match hp : predictor sym g curr past.length with
      | .error e => intro h; cases h
      | .ok ps =>
        intro h
        cases h
        exact Or.inl hx
    · simp only [hg, if_false]
      match hs : scanner item ch nextQ with
      | .error e => intro h; cases h
      | .ok nq =>
        intro h
        cases h
        unfold scanner at hs
        rw [hget] at hs
        revert hs
        by_cases hcond : (some sym = ch ∧ Item.advance item ∉ nextQ)
        · simp only [hcond, if_true]
          intro hs
          cases hs
          rcases List.mem_append.mp hx with hin | hnew
          · exact Or.inl hin
          · rcases List.mem_singleton.mp hnew with rfl
            exact Or.inr ⟨rfl, rfl, rfl, rfl⟩
        · simp only [hcond, if_false]
          intro hs
          cases hs
          exact Or.inl hx
  | none =>
    simp only
    match hh : getHist past curr item.index with
    | .error e => intro h; cases h
    | .ok search =>
      simp only
      match hc : completer item.key search curr with
      | .error e => intro h; cases h
      | .ok cs =>
        intro h
        cases h
        exact Or.inl hx

/-- C8 witness: scanning `(S, (a), 0, 0)` on token `a` places exactly the
advanced copy `(S, (a), 1, 0)` in the next-position queue. -/
theorem scan_only_rule_crossing_positions_witness :
    (⟨'S', ['a'], 1, 0⟩ : Item Char) ∈ ([] : List (Item Char)) ∨
      ((⟨'S', ['a'], 1, 0⟩ : Item Char).key = (⟨'S', ['a'], 0, 0⟩ : Item Char).key ∧
        (⟨'S', ['a'], 1, 0⟩ : Item Char).rule = (⟨'S', ['a'], 0, 0⟩ : Item Char).rule ∧
        (⟨'S', ['a'], 1, 0⟩ : Item Char).dot = (⟨'S', ['a'], 0, 0⟩ : Item Char).dot + 1 ∧
        (⟨'S', ['a'], 1, 0⟩ : Item Char).index = (⟨'S', ['a'], 0, 0⟩ : Item Char).index) :=
  scan_only_rule_crossing_positions ([] : Grammar Char) [] (some 'a')
    ⟨'S', ['a'], 0, 0⟩ [] [] ([], [⟨'S', ['a'], 1, 0⟩]) (by rfl)
    ⟨'S', ['a'], 1, 0⟩ (by simp)

/-- Helper: `chartLoop` appends exactly one state set per remaining token. -/
theorem chartLoop_length (g : Grammar α) (fuel : Nat) :
    ∀ (chs : List (Option α)) (history : List (List (Item α)))
      (nextQ : List (Item α)) (H : List (List (Item α))),
      chartLoop g fuel chs history nextQ = Except.ok H →
      H.length = history.length + chs.length := by
  intro chs
  induction chs with
  | nil =>
    intro history nextQ H h
    cases h
    simp
  | cons ch rest ih =>
    intro history nextQ H h
    unfold chartLoop at h
    revert h
    match hd : drain g history ch fuel nextQ [] [] with
    | .error e => intro h; cases h
    | .ok (curr, nq) =>
      intro h
      have := ih (history ++ [curr]) nq H h
      simp at this
      simp [this]
      omega

/-- C9.  On any input of `N` tokens on which the build succeeds, the returned
chart is a sequence of exactly `N + 1` state sets. -/
theorem chart_length (fuel : Nat) (g : Grammar α) (start : α) (inp : List α)
    (H : List (List (Item α))) (h : chart fuel g start inp = Except.ok H) :
    H.length = inp.length + 1 := by
  unfold chart at h
  revert h
  match hg : gfind g start with
  | none => intro h; cases h
  | some prods =>
    intro h
    have := chartLoop_length g fuel (inp.map some ++ [none]) []
      (prods.map (fun rule => ⟨start, rule, 0, 0⟩)) H h
    simpa using this

/-- C9 witness: the chart for the 2-token input `"2+"` has 3 state sets. -/
theorem chart_length_witness : two_plus_chart.length = 2 + 1 :=
  chart_length 1000 small_grammar 'P' ['2', '+'] two_plus_chart rfl

theorem osAdd_mem_self (s : List (Item α)) (x : Item α) : x ∈ osAdd s x := by
  unfold osAdd
  split
  · assumption
  · simp

theorem osAdd_mem_of_mem (s : List (Item α)) (x y : Item α) (h : y ∈ s) :
    y ∈ osAdd s x := by
  unfold osAdd
  split
  · exact h
  · exact List.mem_append_left _ h

theorem osAdd_mem (s : List (Item α)) (x y : Item α) :
    y ∈ osAdd s x ↔ y ∈ s ∨ y = x := by
  unfold osAdd
  split
  · rename_i hx
    constructor
    · exact Or.inl
    · rintro (h | rfl)
      · exact h
      · exact hx
  · simp

theorem osAdd_nodup (s : List (Item α)) (x : Item α) (h : s.Nodup) :
    (osAdd s x).Nodup := by
  unfold osAdd
  split
  · exact h
  · rename_i hx
    simp [List.nodup_append, h, hx]

theorem completerStep_ok_some (key : α) (seen : List (Item α)) (p it : Item α)
    (h : completerStep key seen p = Except.ok (some it)) :
    p.rule.get? p.dot = some key ∧ it = Item.advance p ∧ Item.advance p ∉ seen := by
  unfold completerStep at h
  split at h
  · split at h
    · cases h
    · rename_i s hget
      split at h
      · rename_i hc
        cases h
        exact ⟨by rw [hget, hc.1], rfl, hc.2⟩
      · cases h
  · cases h

theorem completer_mem (key : α) :
    ∀ (search seen cs : List (Item α)), completer key search seen = Except.ok cs →
      ∀ x ∈ cs, ∃ p ∈ search, p.rule.get? p.dot = some key ∧ x = Item.advance p := by
  intro search
  induction search with
  | nil =>
    intro seen cs h x hx
    cases h
    cases hx
  | cons p rest ih =>
    intro seen cs h x hx
    unfold completer at h
    split at h
    · cases h
    · rename_i o hstep
      split at h
      · cases h
      · rename_i others hrec
        split at h
        · rename_i it
          cases h
          rcases List.mem_cons.mp hx with rfl | hx'
          · obtain ⟨hkey, hadv, -⟩ := completerStep_ok_some key seen p x hstep
            exact ⟨p, List.mem_cons_self _ _, hkey, hadv⟩
          · obtain ⟨p', hp', hkey, hadv⟩ := ih seen others hrec x hx'
            exact ⟨p', List.mem_cons_of_mem _ hp', hkey, hadv⟩
        · cases h
          obtain ⟨p', hp', hkey, hadv⟩ := ih seen _ hrec x hx
          exact ⟨p', List.mem_cons_of_mem _ hp', hkey, hadv⟩

theorem completer_ok_not_complete (key : α) :
    ∀ (search seen cs : List (Item α)), completer key search seen = Except.ok cs →
      ∀ p ∈ search, p.dot ≤ p.rule.length → p.rule.get? p.dot ≠ none := by
  intro search
  induction search with
  | nil =>
    intro seen cs h p hp
    cases hp
  | cons p rest ih =>
    intro seen cs h x hx hle hnone
    unfold completer at h
    split at h
    · cases h
    · rename_i o hstep
      split at h
      · cases h
      · rename_i others hrec
        rcases List.mem_cons.mp hx with rfl | hx'
        · unfold completerStep at hstep
          rw [if_pos hle, hnone] at hstep
          simp at hstep
        · exact ih seen others hrec x hx' hle hnone

theorem completer_coverage (key : α) :
    ∀ (search seen cs : List (Item α)), completer key search seen = Except.ok cs →
      ∀ p ∈ search, p.rule.get? p.dot = some key →
        Item.advance p ∈ seen ∨ Item.advance p ∈ cs := by
  intro search
  induction search with
  | nil =>
    intro seen cs h p hp
    cases hp
  | cons p rest ih =>
    intro seen cs h x hx hkey
    unfold completer at h
    split at h
    · cases h
    · rename_i o hstep
      split at h
      · cases h
      · rename_i others hrec
        rcases List.mem_cons.mp hx with rfl | hx'
        · have hle : x.dot ≤ x.rule.length := by
            rcases List.get?_eq_some.mp hkey with ⟨hl, -⟩
            exact Nat.le_of_lt hl
          unfold completerStep at hstep
          split at hstep
          · split at hstep
            · rename_i hnone
              rw [hkey] at hnone
              cases hnone
            · rename_i s hget
              have hs : s = key := Option.some.inj (hget.symm.trans hkey)
              subst hs
              split at hstep
              · cases hstep
                simp only [Except.ok.injEq] at h
                subst h
                exact Or.inr (List.mem_cons_self _ _)
              · rename_i hc
                rw [not_and_or] at hc
                rcases hc with hc | hc
                · exact absurd rfl hc
                · rw [not_not] at hc
                  exact Or.inl hc
          · rename_i hgt
            exact absurd hle hgt
        · rcases ih seen others hrec x hx' hkey with hin | hin
          · exact Or.inl hin
          · right
            split at h
            · rename_i it
              cases h
              exact List.mem_cons_of_mem _ hin
            · cases h
              exact hin

theorem predictor_ok (key : α) (g : Grammar α) (seen : List (Item α)) (i : Nat)
    (ps : List (Item α)) (h : predictor key g seen i = Except.ok ps) :
    ∃ prods, gfind g key = some prods ∧
      (∀ p ∈ prods, (⟨key, p, 0, i⟩ : Item α) ∈ seen ∨
        (⟨key, p, 0, i⟩ : Item α) ∈ ps) ∧
      (∀ x ∈ ps, ∃ p ∈ prods, x = (⟨key, p, 0, i⟩ : Item α)) := by
  unfold predictor at h
  revert h
  match hg : gfind g key with
  | none => intro h; cases h
  | some prods =>
    intro h
    cases h
    refine ⟨prods, rfl, ?_, ?_⟩
    · intro p hp
      by_cases hin : (⟨key, p, 0, i⟩ : Item α) ∈ seen
      · exact Or.inl hin
      · refine Or.inr (List.mem_filterMap.mpr ⟨p, hp, ?_⟩)
        simp [hin]
    · intro x hx
      rcases List.mem_filterMap.mp hx with ⟨p, hp, hf⟩
      refine ⟨p, hp, ?_⟩
      by_cases hin : (⟨key, p, 0, i⟩ : Item α) ∈ seen
      · simp [hin] at hf
      · simp [hin] at hf
        exact hf.symm

theorem scanner_sub (item : Item α) (ch : Option α) (Q Q' : List (Item α))
    (h : scanner item ch Q = Except.ok Q') : ∀ x ∈ Q, x ∈ Q' := by
  unfold scanner at h
  split at h
  · cases h
  · split at h
    · cases h
      intro x hx
      exact List.mem_append_left _ hx
    · cases h
      intro x hx
      exact hx

theorem scanner_mem (item : Item α) (ch : Option α) (Q Q' : List (Item α))
    (h : scanner item ch Q = Except.ok Q') :
    ∀ x ∈ Q', x ∈ Q ∨ x = Item.advance item := by
  unfold scanner at h
  split at h
  · cases h
  · split at h
    · cases h
      intro x hx
      rcases List.mem_append.mp hx with hx' | hx'
      · exact Or.inl hx'
      · exact Or.inr (List.mem_singleton.mp hx')
    · cases h
      intro x hx
      exact Or.inl hx

theorem scanner_ok_some (item : Item α) (ch : Option α) (Q Q' : List (Item α))
    (h : scanner item ch Q = Except.ok Q') :
    ∃ s, item.rule.get? item.dot = some s := by
  unfold scanner at h
  split at h
  · cases h
  · rename_i s hget
    exact ⟨s, hget⟩

theorem scanner_adds (item : Item α) (ch : Option α) (Q Q' : List (Item α))
    (h : scanner item ch Q = Except.ok Q') (s : α)
    (hget : item.rule.get? item.dot = some s) (hch : ch = some s) :
    Item.advance item ∈ Q' := by
  unfold scanner at h
  split at h
  · rename_i hnone
    rw [hget] at hnone
    cases hnone
  · rename_i s' hget'
    have hs : s' = s := Option.some.inj (hget'.symm.trans hget)
    subst hs
    split at h
    · cases h
      simp
    · rename_i hcond
      cases h
      rw [hch] at hcond
      simp at hcond
      exact hcond

theorem getHist_ok (past : List (List (Item α))) (curr : List (Item α))
    (index : Nat) (s : List (Item α)) (h : getHist past curr index = Except.ok s) :
    past.get? index = some s ∨ (index = past.length ∧ s = curr) := by
  unfold getHist at h
  split at h
  · rename_i t hp
    cases h
    exact Or.inl hp
  · split at h
    · rename_i hlen
      cases h
      exact Or.inr ⟨hlen, rfl⟩
    · cases h

theorem Oblig_mono (g : Grammar α) (past : List (List (Item α))) (ch : Option α)
    (c q n c' q' n' : List (Item α)) (it : Item α)
    (h : Oblig g past ch c q n it)
    (hc : ∀ x ∈ c, x ∈ c') (hq : ∀ x ∈ q, x ∈ c' ∨ x ∈ q')
    (hn : ∀ x ∈ n, x ∈ n') :
    Oblig g past ch c' q' n' it := by
  obtain ⟨h1, h2⟩ := h
  refine ⟨fun sym hget => ⟨?_, ?_⟩, ?_⟩
  · intro prods hg p hp
    rcases (h1 sym hget).1 prods hg p hp with hx | hx
    · exact Or.inl (hc _ hx)
    · exact hq _ hx
  · intro hg hch
    exact hn _ ((h1 sym hget).2 hg hch)
  · intro hnone
    obtain ⟨Sj, hSj, hall⟩ := h2 hnone
    refine ⟨Sj, hSj, fun p hp hkey => ?_⟩
    rcases hall p hp hkey with hx | hx
    · exact Or.inl (hc _ hx)
    · exact hq _ hx

theorem stepItem_next_sub (g : Grammar α) (past : List (List (Item α)))
    (ch : Option α) (item : Item α) (curr nextQ : List (Item α))
    (out : List (Item α) × List (Item α))
    (h : stepItem g past ch item curr nextQ = Except.ok out) :
    ∀ x ∈ nextQ, x ∈ out.2 := by
  unfold stepItem at h
  split at h
  · split at h
    · split at h
      · cases h
      · cases h
        intro x hx
        exact hx
    · split at h
      · cases h
      · rename_i nq hs
        cases h
        exact scanner_sub item ch nextQ nq hs
  · split at h
    · cases h
    · split at h
      · cases h
      · cases h
        intro x hx
        exact hx

theorem stepItem_wf (g : Grammar α) (past : List (List (Item α)))
    (ch : Option α) (item : Item α) (curr nextQ : List (Item α))
    (out : List (Item α) × List (Item α))
    (h : stepItem g past ch item curr nextQ = Except.ok out)
    (hnq : ∀ x ∈ nextQ, x.dot ≤ x.rule.length) :
    (∀ x ∈ out.1, x.dot ≤ x.rule.length) ∧
      (∀ x ∈ out.2, x.dot ≤ x.rule.length) := by
  unfold stepItem at h
  split at h
  · rename_i sym hget
    split at h
    · split at h
      · cases h
      · rename_i ps hp
        cases h
        refine ⟨?_, hnq⟩
        intro x hx
        obtain ⟨prods, -, -, hmem⟩ := predictor_ok sym g curr past.length ps hp
        obtain ⟨p, -, rfl⟩ := hmem x hx
        exact Nat.zero_le _
    · split at h
      · cases h
      · rename_i nq hs
        cases h
        refine ⟨fun x hx => absurd hx (List.not_mem_nil x), ?_⟩
        intro x hx
        rcases scanner_mem item ch nextQ nq hs x hx with hin | rfl
        · exact hnq x hin
        · rcases List.get?_eq_some.mp hget with ⟨hl, -⟩
          exact hl
  · split at h
    · cases h
    · rename_i search hh
      split at h
      · cases h
      · rename_i cs hc
        cases h
        refine ⟨?_, hnq⟩
        intro x hx
        obtain ⟨p, -, hkey, rfl⟩ := completer_mem item.key search curr cs hc x hx
        rcases List.get?_eq_some.mp hkey with ⟨hl, -⟩
        exact hl

theorem stepItem_origin (g : Grammar α) (past : List (List (Item α)))
    (ch : Option α) (item : Item α) (curr nextQ : List (Item α))
    (out : List (Item α) × List (Item α))
    (h : stepItem g past ch item curr nextQ = Except.ok out)
    (hpast : ∀ j Sj, past.get? j = some Sj → ∀ p ∈ Sj, p.index ≤ j)
    (hitem : item.index ≤ past.length)
    (hcurr : ∀ x ∈ curr, x.index ≤ past.length)
    (hnq : ∀ x ∈ nextQ, x.index ≤ past.length) :
    (∀ x ∈ out.1, x.index ≤ past.length) ∧
      (∀ x ∈ out.2, x.index ≤ past.length) := by
  unfold stepItem at h
  split at h
  · rename_i sym hget
    split at h
    · split at h
      · cases h
      · rename_i ps hp
        cases h
        refine ⟨?_, hnq⟩
        intro x hx
        obtain ⟨prods, -, -, hmem⟩ := predictor_ok sym g curr past.length ps hp
        obtain ⟨p, -, rfl⟩ := hmem x hx
        exact Nat.le_refl _
    · split at h
      · cases h
      · rename_i nq hs
        cases h
        refine ⟨fun x hx => absurd hx (List.not_mem_nil x), ?_⟩
        intro x hx
        rcases scanner_mem item ch nextQ nq hs x hx with hin | rfl
        · exact hnq x hin
        · exact hitem
  · split at h
    · cases h
    · rename_i search hh
      split at h
      · cases h
      · rename_i cs hc
        cases h
        refine ⟨?_, hnq⟩
        intro x hx
        obtain ⟨p, hpmem, -, rfl⟩ := completer_mem item.key search curr cs hc x hx
        rcases getHist_ok past curr item.index search hh with hsome | ⟨-, rfl⟩
        · rcases List.get?_eq_some.mp hsome with ⟨hj, -⟩
          exact Nat.le_trans (hpast item.index search hsome p hpmem) (Nat.le_of_lt hj)
        · exact hcurr p hpmem

theorem stepItem_oblig (g : Grammar α) (past : List (List (Item α)))
    (ch : Option α) (item : Item α) (curr nextQ : List (Item α))
    (out : List (Item α) × List (Item α))
    (h : stepItem g past ch item curr nextQ = Except.ok out)
    (hwf : item.dot ≤ item.rule.length)
    (hmem : item ∈ curr) :
    Oblig g past ch curr out.1 out.2 item := by
  unfold stepItem at h
  split at h
  · rename_i sym hget
    split at h
    · rename_i hsome
      split at h
      · cases h
      · rename_i ps hp
        cases h
        obtain ⟨prods, hprods, hcov, -⟩ := predictor_ok sym g curr past.length ps hp
        constructor
        · intro sym' hget'
          have hsym : sym' = sym := Option.some.inj (hget'.symm.trans hget)
          subst hsym
          constructor
          · intro prods' hg p hp'
            rw [hprods] at hg
            cases hg
            exact hcov p hp'
          · intro hgn
            rw [hprods] at hgn
            cases hgn
        · intro hn
          rw [hget] at hn
          cases hn
    · rename_i hnot
      split at h
      · cases h
      · rename_i nq hs
        cases h
        constructor
        · intro sym' hget'
          have hsym : sym' = sym := Option.some.inj (hget'.symm.trans hget)
          subst hsym
          constructor
          · intro prods hg
            rw [Option.not_isSome_iff_eq_none] at hnot
            rw [hnot] at hg
            cases hg
          · intro hgn hch
            exact scanner_adds item ch nextQ nq hs sym' hget hch
        · intro hn
          rw [hget] at hn
          cases hn
  · rename_i hnone
    split at h
    · cases h
    · rename_i search hh
      split at h
      · cases h
      · rename_i cs hc
        cases h
        constructor
        · intro sym' hget'
          rw [hnone] at hget'
          cases hget'
        · intro _hcomplete
          rcases getHist_ok past curr item.index search hh with hsome | ⟨hlen, rfl⟩
          · refine ⟨search, hsome, fun p hp hkey => ?_⟩
            exact completer_coverage item.key search curr cs hc p hp hkey
          · exact absurd hnone
              (completer_ok_not_complete item.key search search cs hc item hmem hwf)

theorem drain_nodup (g : Grammar α) (past : List (List (Item α))) (ch : Option α) :
    ∀ (fuel : Nat) (q curr nextQ : List (Item α))
      (out : List (Item α) × List (Item α)),
      drain g past ch fuel q curr nextQ = Except.ok out →
      curr.Nodup → out.1.Nodup := by
  intro fuel
  induction fuel with
  | zero =>
    intro q curr nextQ out h hn
    match q with
    | [] =>
      simp only [drain] at h
      cases h
      exact hn
    | _ :: _ =>
      simp only [drain] at h
      cases h
  | succ n ih =>
    intro q curr nextQ out h hn
    match q with
    | [] =>
      simp only [drain] at h
      cases h
      exact hn
    | item :: qrest =>
      simp only [drain] at h
      split at h
      · cases h
      · rename_i ps nq hs
        exact ih (qrest ++ ps) (osAdd curr item) nq out h (osAdd_nodup curr item hn)

theorem drain_origin (g : Grammar α) (past : List (List (Item α))) (ch : Option α)
    (hpast : ∀ j Sj, past.get? j = some Sj → ∀ p ∈ Sj, p.index ≤ j) :
    ∀ (fuel : Nat) (q curr nextQ : List (Item α))
      (out : List (Item α) × List (Item α)),
      drain g past ch fuel q curr nextQ = Except.ok out →
      (∀ x ∈ q, x.index ≤ past.length) →
      (∀ x ∈ curr, x.index ≤ past.length) →
      (∀ x ∈ nextQ, x.index ≤ past.length) →
      (∀ x ∈ out.1, x.index ≤ past.length) ∧
        (∀ x ∈ out.2, x.index ≤ past.length) := by
  intro fuel
  induction fuel with
  | zero =>
    intro q curr nextQ out h hq hcurr hnq
    match q with
    | [] =>
      simp only [drain] at h
      cases h
      exact ⟨hcurr, hnq⟩
    | _ :: _ =>
      simp only [drain] at h
      cases h
  | succ n ih =>
    intro q curr nextQ out h hq hcurr hnq
    match q with
    | [] =>
      simp only [drain] at h
      cases h
      exact ⟨hcurr, hnq⟩
    | item :: qrest =>
      simp only [drain] at h
      split at h
      · cases h
      · rename_i ps nq hs
        have hitem : item.index ≤ past.length := hq item (List.mem_cons_self _ _)
        have hcurr' : ∀ x ∈ osAdd curr item, x.index ≤ past.length := by
          intro x hx
          rcases (osAdd_mem curr item x).mp hx with hx' | rfl
          · exact hcurr x hx'
          · exact hitem
        obtain ⟨hps, hnq'⟩ := stepItem_origin g past ch item (osAdd curr item) nextQ
          (ps, nq) hs hpast hitem hcurr' hnq
        refine ih (qrest ++ ps) (osAdd curr item) nq out h ?_ hcurr' hnq'
        intro x hx
        rcases List.mem_append.mp hx with hx' | hx'
        · exact hq x (List.mem_cons_of_mem _ hx')
        · exact hps x hx'

theorem drain_closed (g : Grammar α) (past : List (List (Item α))) (ch : Option α) :
    ∀ (fuel : Nat) (q curr nextQ : List (Item α))
      (out : List (Item α) × List (Item α)),
      drain g past ch fuel q curr nextQ = Except.ok out →
      (∀ x ∈ q, x.dot ≤ x.rule.length) →
      (∀ x ∈ curr, x.dot ≤ x.rule.length) →
      (∀ x ∈ nextQ, x.dot ≤ x.rule.length) →
      (∀ it ∈ curr, Oblig g past ch curr q nextQ it) →
      (∀ it ∈ out.1, Oblig g past ch out.1 [] out.2 it) ∧
        (∀ x ∈ q, x ∈ out.1) ∧ (∀ x ∈ curr, x ∈ out.1) ∧
        (∀ x ∈ nextQ, x ∈ out.2) ∧
        (∀ x ∈ out.1, x.dot ≤ x.rule.length) ∧
        (∀ x ∈ out.2, x.dot ≤ x.rule.length) := by
  intro fuel
  induction fuel with
  | zero =>
    intro q curr nextQ out h hq hcurr hnq hob
    match q with
    | [] =>
      simp only [drain] at h
      cases h
      exact ⟨hob, fun x hx => absurd hx (List.not_mem_nil x), fun x hx => hx,
        fun x hx => hx, hcurr, hnq⟩
    | _ :: _ =>
      simp only [drain] at h
      cases h
  | succ n ih =>
    intro q curr nextQ out h hq hcurr hnq hob
    match q with
    | [] =>
      simp only [drain] at h
      cases h
      exact ⟨hob, fun x hx => absurd hx (List.not_mem_nil x), fun x hx => hx,
        fun x hx => hx, hcurr, hnq⟩
    | item :: qrest =>
      simp only [drain] at h
      split at h
      · cases h
      · rename_i ps nq hs
        have hwf_item : item.dot ≤ item.rule.length :=
          hq item (List.mem_cons_self _ _)
        have hmem_item : item ∈ osAdd curr item := osAdd_mem_self curr item
        have hcurr'_wf : ∀ x ∈ osAdd curr item, x.dot ≤ x.rule.length := by
          intro x hx
          rcases (osAdd_mem curr item x).mp hx with hx' | rfl
          · exact hcurr x hx'
          · exact hwf_item
        obtain ⟨hps_wf, hnq'_wf⟩ := stepItem_wf g past ch item (osAdd curr item)
          nextQ (ps, nq) hs hnq
        have hnext_sub : ∀ x ∈ nextQ, x ∈ nq :=
          stepItem_next_sub g past ch item (osAdd curr item) nextQ (ps, nq) hs
        have hob_item : Oblig g past ch (osAdd curr item) ps nq item :=
          stepItem_oblig g past ch item (osAdd curr item) nextQ (ps, nq) hs
            hwf_item hmem_item
        have hob' : ∀ it ∈ osAdd curr item,
            Oblig g past ch (osAdd curr item) (qrest ++ ps) nq it := by
          intro it hit
          rcases (osAdd_mem curr item it).mp hit with hit' | rfl
          · refine Oblig_mono g past ch curr (item :: qrest) nextQ _ _ _ it
              (hob it hit') (fun x hx => osAdd_mem_of_mem curr item x hx) ?_
              hnext_sub
            intro x hx
            rcases List.mem_cons.mp hx with rfl | hx'
            · exact Or.inl (osAdd_mem_self curr x)
            · exact Or.inr (List.mem_append_left _ hx')
          · refine Oblig_mono g past ch (osAdd curr it) ps nq _ _ _ it
              hob_item (fun x hx => hx) ?_ (fun x hx => hx)
            intro x hx
            exact Or.inr (List.mem_append_right _ hx)
        have hq' : ∀ x ∈ qrest ++ ps, x.dot ≤ x.rule.length := by
          intro x hx
          rcases List.mem_append.mp hx with hx' | hx'
          · exact hq x (List.mem_cons_of_mem _ hx')
          · exact hps_wf x hx'
        obtain ⟨c1, c2, c3, c4, c5, c6⟩ := ih (qrest ++ ps) (osAdd curr item) nq
          out h hq' hcurr'_wf hnq'_wf hob'
        refine ⟨c1, ?_, ?_, ?_, c5, c6⟩
        · intro x hx
          rcases List.mem_cons.mp hx with rfl | hx'
          · exact c3 x (osAdd_mem_self curr x)
          · exact c2 x (List.mem_append_left _ hx')
        · intro x hx
          exact c3 x (osAdd_mem_of_mem curr item x hx)
        · intro x hx
          exact c4 x (hnext_sub x hx)

theorem concat_get (history : List (List (Item α))) (curr Sj : List (Item α))
    (j : Nat) (h : (history ++ [curr]).get? j = some Sj) :
    (j < history.length ∧ history.get? j = some Sj) ∨
      (j = history.length ∧ Sj = curr) := by
  by_cases hlt : j < history.length
  · rw [List.get?_append hlt] at h
    exact Or.inl ⟨hlt, h⟩
  · have hlen : j < history.length + 1 := by
      rcases List.get?_eq_some.mp h with ⟨hl, -⟩
      rw [List.length_append, List.length_singleton] at hl
      exact hl
    have hj : j = history.length := by omega
    subst hj
    rw [List.get?_concat_length] at h
    exact Or.inr ⟨rfl, (Option.some.inj h).symm⟩

theorem chartLoop_nodup (g : Grammar α) (fuel : Nat) :
    ∀ (chs : List (Option α)) (history : List (List (Item α)))
      (nextQ : List (Item α)) (H : List (List (Item α))),
      chartLoop g fuel chs history nextQ = Except.ok H →
      (∀ S ∈ history, S.Nodup) → ∀ S ∈ H, S.Nodup := by
  intro chs
  induction chs with
  | nil =>
    intro history nextQ H h hh
    simp only [chartLoop] at h
    cases h
    exact hh
  | cons ch rest ih =>
    intro history nextQ H h hh
    simp only [chartLoop] at h
    split at h
    · cases h
    · rename_i curr nq hd
      refine ih (history ++ [curr]) nq H h ?_
      intro S hS
      rcases List.mem_append.mp hS with hS' | hS'
      · exact hh S hS'
      · rcases List.mem_singleton.mp hS' with rfl
        exact drain_nodup g history ch fuel nextQ [] [] (S, nq) hd List.nodup_nil

theorem chartLoop_origin (g : Grammar α) (fuel : Nat) :
    ∀ (chs : List (Option α)) (history : List (List (Item α)))
      (nextQ : List (Item α)) (H : List (List (Item α))),
      chartLoop g fuel chs history nextQ = Except.ok H →
      (∀ j Sj, history.get? j = some Sj → ∀ p ∈ Sj, p.index ≤ j) →
      (∀ p ∈ nextQ, p.index ≤ history.length) →
      ∀ j Sj, H.get? j = some Sj → ∀ p ∈ Sj, p.index ≤ j := by
  intro chs
  induction chs with
  | nil =>
    intro history nextQ H h hh hq
    simp only [chartLoop] at h
    cases h
    exact hh
  | cons ch rest ih =>
    intro history nextQ H h hh hq
    simp only [chartLoop] at h
    split at h
    · cases h
    · rename_i curr nq hd
      obtain ⟨hS, hnq⟩ := drain_origin g history ch hh fuel nextQ [] []
        (curr, nq) hd hq (fun x hx => absurd hx (List.not_mem_nil x))
        (fun x hx => absurd hx (List.not_mem_nil x))
      refine ih (history ++ [curr]) nq H h ?_ ?_
      · intro j Sj hj p hp
        rcases concat_get history curr Sj j hj with ⟨hlt, hj'⟩ | ⟨rfl, rfl⟩
        · exact hh j Sj hj' p hp
        · exact hS p hp
      · intro p hp
        have h1 := hnq p hp
        have h2 : (history ++ [curr]).length = history.length + 1 := by
          rw [List.length_append, List.length_singleton]
        omega

theorem chartLoop_closed (g : Grammar α) (fuel : Nat) (L : List (Option α)) :
    ∀ (chs : List (Option α)) (history : List (List (Item α)))
      (nextQ : List (Item α)) (H : List (List (Item α))),
      chartLoop g fuel chs history nextQ = Except.ok H →
      (∀ k, chs.get? k = L.get? (history.length + k)) →
      (∀ j Sj, history.get? j = some Sj → ∀ p ∈ Sj, p.index ≤ j) →
      (∀ p ∈ nextQ, p.index ≤ history.length) →
      (∀ p ∈ nextQ, p.dot ≤ p.rule.length) →
      (∀ j Sj, history.get? j = some Sj → ∀ it ∈ Sj,
        ∀ sym, it.rule.get? it.dot = some sym → ∀ prods, gfind g sym = some prods →
          ∀ p ∈ prods, (⟨sym, p, 0, j⟩ : Item α) ∈ Sj) →
      (∀ j Sj, history.get? j = some Sj → ∀ it ∈ Sj,
        it.rule.get? it.dot = none → ∀ Sk, history.get? it.index = some Sk →
          ∀ p ∈ Sk, p.rule.get? p.dot = some it.key → Item.advance p ∈ Sj) →
      (∀ j Sj, history.get? j = some Sj → ∀ it ∈ Sj,
        ∀ sym, it.rule.get? it.dot = some sym → gfind g sym = none →
          L.get? j = some (some sym) →
          (∀ S', history.get? (j + 1) = some S' → Item.advance it ∈ S') ∧
            (history.get? (j + 1) = none → Item.advance it ∈ nextQ)) →
      (∀ j Sj, H.get? j = some Sj → ∀ it ∈ Sj,
        ∀ sym, it.rule.get? it.dot = some sym → ∀ prods, gfind g sym = some prods →
          ∀ p ∈ prods, (⟨sym, p, 0, j⟩ : Item α) ∈ Sj) ∧
      (∀ j Sj, H.get? j = some Sj → ∀ it ∈ Sj,
        it.rule.get? it.dot = none → ∀ Sk, H.get? it.index = some Sk →
          ∀ p ∈ Sk, p.rule.get? p.dot = some it.key → Item.advance p ∈ Sj) ∧
      (∀ j Sj, H.get? j = some Sj → ∀ it ∈ Sj,
        ∀ sym, it.rule.get? it.dot = some sym → gfind g sym = none →
          L.get? j = some (some sym) → ∀ S', H.get? (j + 1) = some S' →
            Item.advance it ∈ S') := by
  intro chs
  induction chs with
  | nil =>
    intro history nextQ H h hk horig hnqorig hnqwf hpred hcomp hscan
    simp only [chartLoop] at h
    cases h
    exact ⟨hpred, hcomp, fun j Sj hj it hit sym hget hgn hL S' hS' =>
      (hscan j Sj hj it hit sym hget hgn hL).1 S' hS'⟩
  | cons ch rest ih =>
    intro history nextQ H h hk horig hnqorig hnqwf hpred hcomp hscan
    simp only [chartLoop] at h
    split at h
    · cases h
    · rename_i curr nq hd
      have hL0 : L.get? history.length = some ch := by
        have h1 := hk 0
        simpa using h1.symm
      obtain ⟨d1, d2, d3, d4, d5, d6⟩ := drain_closed g history ch fuel nextQ [] []
        (curr, nq) hd hnqwf (fun x hx => absurd hx (List.not_mem_nil x))
        (fun x hx => absurd hx (List.not_mem_nil x))
        (fun it hit => absurd hit (List.not_mem_nil it))
      obtain ⟨hSorig, hnq_orig⟩ := drain_origin g history ch horig fuel nextQ [] []
        (curr, nq) hd hnqorig (fun x hx => absurd hx (List.not_mem_nil x))
        (fun x hx => absurd hx (List.not_mem_nil x))
      refine ih (history ++ [curr]) nq H h ?_ ?_ ?_ d6 ?_ ?_ ?_
      · intro k
        have h1 := hk (k + 1)
        have h2 : (history ++ [curr]).length = history.length + 1 := by
          rw [List.length_append, List.length_singleton]
        rw [h2, Nat.add_assoc, Nat.add_comm 1 k]
        exact h1
      · intro j Sj hj p hp
        rcases concat_get history curr Sj j hj with ⟨hlt, hj'⟩ | ⟨rfl, rfl⟩
        · exact horig j Sj hj' p hp
        · exact hSorig p hp
      · intro p hp
        have h1 := hnq_orig p hp
        have h2 : (history ++ [curr]).length = history.length + 1 := by
          rw [List.length_append, List.length_singleton]
        omega
      · intro j Sj hj it hit sym hget prods hg p hp
        rcases concat_get history curr Sj j hj with ⟨hlt, hj'⟩ | ⟨rfl, rfl⟩
        · exact hpred j Sj hj' it hit sym hget prods hg p hp
        · rcases ((d1 it hit).1 sym hget).1 prods hg p hp with hin | hin
          · exact hin
          · exact absurd hin (List.not_mem_nil _)
      · intro j Sj hj it hit hnone Sk hSk p hp hkey
        rcases concat_get history curr Sj j hj with ⟨hlt, hj'⟩ | ⟨rfl, rfl⟩
        · have hidx : it.index ≤ j := horig j Sj hj' it hit
          have hidx_lt : it.index < history.length := Nat.lt_of_le_of_lt hidx hlt
          rw [List.get?_append hidx_lt] at hSk
          exact hcomp j Sj hj' it hit hnone Sk hSk p hp hkey
        · obtain ⟨Sj', hSj', hall⟩ := (d1 it hit).2 hnone
          have hidx_lt : it.index < history.length := by
            rcases List.get?_eq_some.mp hSj' with ⟨hl, -⟩
            exact hl
          rw [List.get?_append hidx_lt, hSj'] at hSk
          cases hSk
          rcases hall p hp hkey with hin | hin
          · exact hin
          · exact absurd hin (List.not_mem_nil _)
      · intro j Sj hj it hit sym hget hgn hL
        rcases concat_get history curr Sj j hj with ⟨hlt, hj'⟩ | ⟨rfl, rfl⟩
        · obtain ⟨hs1, hs2⟩ := hscan j Sj hj' it hit sym hget hgn hL
          constructor
          · intro S' hS'
            rcases concat_get history curr S' (j + 1) hS' with ⟨hlt', hS''⟩ | ⟨heq, rfl⟩
            · exact hs1 S' hS''
            · have hnone' : history.get? (j + 1) = none := by
                rw [heq]
                exact List.get?_len_le (Nat.le_refl _)
              exact d2 (Item.advance it) (hs2 hnone')
          · intro hnone'
            exfalso
            rw [List.get?_eq_none, List.length_append, List.length_singleton] at hnone'
            omega
        · have hch : ch = some sym := by
            rw [hL0] at hL
            exact Option.some.inj hL
          have hadv : Item.advance it ∈ nq := ((d1 it hit).1 sym hget).2 hgn hch
          constructor
          · intro S' hS'
            exfalso
            rcases List.get?_eq_some.mp hS' with ⟨hl, -⟩
            rw [List.length_append, List.length_singleton] at hl
            omega
          · intro _h
            exact hadv

theorem tokens_get_of_inp (inp : List α) (i : Nat) (sym : α)
    (h : inp.get? i = some sym) :
    (inp.map some ++ [none]).get? i = some (some sym) := by
  have hlt : i < inp.length := by
    rcases List.get?_eq_some.mp h with ⟨hl, -⟩
    exact hl
  have hlt' : i < (inp.map some).length := by
    rw [List.length_map]
    exact hlt
  rw [List.get?_append hlt', List.get?_map, h]
  rfl

/-- C7.  In any chart the build returns, every state set is duplicate-free:
items, compared as full tuples `(nonterminal, production, dot, origin)`, occur
at most once per state set (`OrderedSet.add` inserts only if absent). -/
theorem chart_state_sets_nodup (fuel : Nat) (g : Grammar α) (start : α)
    (inp : List α) (H : List (List (Item α)))
    (h : chart fuel g start inp = Except.ok H) :
    ∀ S ∈ H, S.Nodup := by
  unfold chart at h
  split at h
  · cases h
  · rename_i prods hg
    exact chartLoop_nodup g fuel (inp.map some ++ [none]) []
      (prods.map (fun rule => ⟨start, rule, 0, 0⟩)) H h
      (fun S hS => absurd hS (List.not_mem_nil S))

/-- C7 witness: state set 1 of the chart for `"2+"` is duplicate-free. -/
theorem chart_state_sets_nodup_witness : (two_plus_chart.getD 1 []).Nodup :=
  chart_state_sets_nodup 1000 small_grammar 'P' ['2', '+'] two_plus_chart (by rfl)
    (two_plus_chart.getD 1 []) (by decide)

/-- C10.  In any chart the build returns, every item in the state set at
position `i` has `origin ≤ i` (and `0 ≤ origin` holds since origins are
naturals): Predict creates items with origin equal to the current position,
Scan carries the origin unchanged one position to the right, and Complete
advances items taken from the state set at an origin position within the
chart built so far. -/
theorem chart_origin_bounds (fuel : Nat) (g : Grammar α) (start : α)
    (inp : List α) (H : List (List (Item α)))
    (h : chart fuel g start inp = Except.ok H) :
    ∀ i S, H.get? i = some S → ∀ p ∈ S, p.index ≤ i := by
  unfold chart at h
  split at h
  · cases h
  · rename_i prods hg
    refine chartLoop_origin g fuel (inp.map some ++ [none]) []
      (prods.map (fun rule => ⟨start, rule, 0, 0⟩)) H h
      (fun j Sj hj => absurd hj (by simp)) ?_
    intro p hp
    obtain ⟨rule, -, rfl⟩ := List.mem_map.mp hp
    exact Nat.zero_le _

/-- C10 witness: the first item of state set 1 of the `"2+"` chart has
origin at most 1. -/
theorem chart_origin_bounds_witness :
    ((two_plus_chart.getD 1 []).getD 0 ⟨'P', [], 0, 0⟩).index ≤ 1 :=
  chart_origin_bounds 1000 small_grammar 'P' ['2', '+'] two_plus_chart (by rfl) 1
    (two_plus_chart.getD 1 []) (by rfl)
    ((two_plus_chart.getD 1 []).getD 0 ⟨'P', [], 0, 0⟩) (by decide)

/-- C4.  Every state set of a chart the build returns is a fixed point of the
three expansion rules: nothing Predict, Scan or Complete can derive from an
item of a final state set is missing from the state set it would be added to
(Predict and Complete add at the same position, Scan at the next). -/
theorem chart_closed (fuel : Nat) (g : Grammar α) (start : α) (inp : List α)
    (H : List (List (Item α))) (h : chart fuel g start inp = Except.ok H) :
    ChartClosed g inp H := by
  unfold chart at h
  split at h
  · cases h
  · rename_i prods hg
    obtain ⟨hpred, hcomp, hscan⟩ := chartLoop_closed g fuel
      (inp.map some ++ [none]) (inp.map some ++ [none]) []
      (prods.map (fun rule => ⟨start, rule, 0, 0⟩)) H h
      (fun k => by simp)
      (fun j Sj hj => absurd hj (by simp))
      (fun p hp => by
        obtain ⟨rule, -, rfl⟩ := List.mem_map.mp hp
        exact Nat.zero_le _)
      (fun p hp => by
        obtain ⟨rule, -, rfl⟩ := List.mem_map.mp hp
        exact Nat.zero_le _)
      (fun j Sj hj => absurd hj (by simp))
      (fun j Sj hj => absurd hj (by simp))
      (fun j Sj hj => absurd hj (by simp))
    intro i S hS it hit
    refine ⟨hpred i S hS it hit, hcomp i S hS it hit, ?_⟩
    intro sym hget hgn hinp S' hS'
    exact hscan i S hS it hit sym hget hgn (tokens_get_of_inp inp i sym hinp) S' hS'

/-- C4 witness: in the chart for `"2+"`, applying Predict to the item
`(P, (S), 0, 0)` of state set 0 yields `(S, (S + M), 0, 0)`, which is indeed
present in state set 0. -/
theorem chart_closed_witness :
    (⟨'S', ['S', '+', 'M'], 0, 0⟩ : Item Char) ∈ two_plus_chart.getD 0 [] :=
  (chart_closed 1000 small_grammar 'P' ['2', '+'] two_plus_chart (by rfl) 0
      (two_plus_chart.getD 0 []) (by rfl) ⟨'P', ['S'], 0, 0⟩ (by decide)).1
    'S' (by rfl) [['S', '+', 'M'], ['M']] (by rfl) ['S', '+', 'M'] (by decide)

end Earley
